import Mathlib

/-!
Verification of the CS50-AI repository: the Knights propositional-logic
engine and its puzzle client (src/Knights/puzzle.py), and the PageRank
transition model (src/Pagerank/pagerank.py).

The logic engine itself (logic.py) is imported by puzzle.py but is not part
of the repository sources; its definitions below are modelled from the
specification (sections 3, 4.1, 4.2, 4.4, 4.5).  The puzzle knowledge bases,
the client main loop and the PageRank functions are translated from the
repository sources.
-/

namespace CS50

/-- Modelled from the spec: the Sentence AST of the missing logic.py (spec
section 3) — a closed tagged union with Symbol leaves (a Symbol is identified
purely by its name string), negation, a list-arity conjunction and
disjunction, and binary implication and biconditional. -/
inductive Sentence where
  | Atom : String → Sentence
  | Not : Sentence → Sentence
  | And : List Sentence → Sentence
  | Or : List Sentence → Sentence
  | Implies : Sentence → Sentence → Sentence
  | Iff : Sentence → Sentence → Sentence
deriving Repr

/-- Modelled from the spec: a model is a mapping from Symbol to Boolean
(spec section 3); represented as an association list keyed by symbol name. -/
abbrev Model := List (String × Bool)

/-- Look a symbol up in a model; `none` is the "unassigned symbol" error of
spec section 4.1/7. -/
def lookupModel : Model → String → Option Bool
  | [], _ => none
  | (k, v) :: rest, s => if k = s then some v else lookupModel rest s

/-- Set union on symbol lists, keeping the left operand's order and adding
the right operand's new elements (spec sections 4.2 and 4.5 use set union). -/
def union (a b : List String) : List String :=
  a ++ b.filter (fun s => decide (s ∉ a))

mutual

/-- Modelled from the spec: symbol collection (spec section 4.2) —
recursively unions the symbol sets of all children; an atom yields the
singleton of its symbol. -/
def symbols : Sentence → List String
  | .Atom s => [s]
  | .Not x => symbols x
  | .And xs => symbolsList xs
  | .Or xs => symbolsList xs
  | .Implies a b => union (symbols a) (symbols b)
  | .Iff a b => union (symbols a) (symbols b)

/-- Union of the symbol sets of a list of sentences (the children of a
conjunction or disjunction). -/
def symbolsList : List Sentence → List String
  | [] => []
  | x :: xs => union (symbols x) (symbolsList xs)

end

mutual

/-- Modelled from the spec: sentence evaluation (spec section 4.1).  An atom
reads the model; a symbol absent from the model is the "unassigned symbol"
error, embedded as `none`, and it propagates through every connective. -/
def evaluate : Sentence → Model → Option Bool
  | .Atom s, m => lookupModel m s
  | .Not x, m => (evaluate x m).map (fun b => !b)
  | .And xs, m => (evalList xs m).map (fun bs => bs.all id)
  | .Or xs, m => (evalList xs m).map (fun bs => bs.any id)
  | .Implies a b, m =>
      (evaluate a m).bind (fun va => (evaluate b m).map (fun vb => !va || vb))
  | .Iff a b, m =>
      (evaluate a m).bind (fun va => (evaluate b m).map (fun vb => va == vb))

/-- Evaluate each sentence of a list left-to-right, propagating the
unassigned-symbol error. -/
def evalList : List Sentence → Model → Option (List Bool)
  | [], _ => some []
  | x :: xs, m => (evaluate x m).bind (fun b => (evalList xs m).map (fun bs => b :: bs))

end

/-- Modelled from the spec: the model enumerator (spec section 4.4) —
recursive binary branching over the symbol list, true branch before false
branch, base case the empty assignment. -/
def models : List String → List Model
  | [] => [[]]
  | s :: rest =>
      ((models rest).map (fun m => (s, true) :: m)) ++
        ((models rest).map (fun m => (s, false) :: m))

/-- Modelled from the spec: step 1 of the entailment checker (spec section
4.5) — the union of the knowledge base's and the query's symbol sets. -/
def allSymbols (knowledge query : Sentence) : List String :=
  union (symbols knowledge) (symbols query)

/-- Modelled from the spec: the loop of the entailment checker (spec section
4.5, step 2) — an assignment satisfying the knowledge base but not the query
fails entailment immediately; other assignments are skipped; evaluation
errors propagate. -/
def checkAll (kb q : Sentence) : List Model → Option Bool
  | [] => some true
  | m :: ms =>
      match evaluate kb m with
      | none => none
      | some vk =>
          if vk then
            match evaluate q m with
            | none => none
            | some vq => if vq then checkAll kb q ms else some false
          else checkAll kb q ms

/-- Modelled from the spec: the entailment checker `model_check` (spec
section 4.5) — enumerate every assignment over the union of the symbol sets
and check that each model of the knowledge base satisfies the query. -/
def model_check (knowledge query : Sentence) : Option Bool :=
  checkAll knowledge query (models (allSymbols knowledge query))

/-- The total assignment over the listed symbols induced by a Boolean-valued
function on symbol names. -/
def assignOf (L : List String) (f : String → Bool) : Model :=
  L.map (fun s => (s, f s))

/-! Symbols of src/Knights/puzzle.py, lines 3-10. -/

/-- Name of the Symbol built on line 3 of puzzle.py. -/
def AKnightStr : String := "A is a Knight"

/-- Name of the Symbol built on line 4 of puzzle.py. -/
def AKnaveStr : String := "A is a Knave"

/-- Name of the Symbol built on line 6 of puzzle.py. -/
def BKnightStr : String := "B is a Knight"

/-- Name of the Symbol built on line 7 of puzzle.py. -/
def BKnaveStr : String := "B is a Knave"

/-- Name of the Symbol built on line 9 of puzzle.py. -/
def CKnightStr : String := "C is a Knight"

/-- Name of the Symbol built on line 10 of puzzle.py. -/
def CKnaveStr : String := "C is a Knave"

/-- AKnight = Symbol("A is a Knight"), puzzle.py line 3. -/
def AKnight : Sentence := .Atom AKnightStr

/-- AKnave = Symbol("A is a Knave"), puzzle.py line 4. -/
def AKnave : Sentence := .Atom AKnaveStr

/-- BKnight = Symbol("B is a Knight"), puzzle.py line 6. -/
def BKnight : Sentence := .Atom BKnightStr

/-- BKnave = Symbol("B is a Knave"), puzzle.py line 7. -/
def BKnave : Sentence := .Atom BKnaveStr

/-- CKnight = Symbol("C is a Knight"), puzzle.py line 9. -/
def CKnight : Sentence := .Atom CKnightStr

/-- CKnave = Symbol("C is a Knave"), puzzle.py line 10. -/
def CKnave : Sentence := .Atom CKnaveStr

/-- knowledge0, puzzle.py lines 14-22. -/
def knowledge0 : Sentence := .And [
  .Or [AKnight, AKnave],
  .Not (.And [AKnight, AKnave]),
  .Implies AKnight (.And [AKnight, AKnave]),
  .Implies AKnave (.Not (.And [AKnight, AKnave]))
]

/-- knowledge1, puzzle.py lines 27-35. -/
def knowledge1 : Sentence := .And [
  .And [.Or [AKnight, AKnave], .Not (.And [AKnight, AKnave])],
  .And [.Or [BKnight, BKnave], .Not (.And [BKnight, BKnave])],
  .Implies AKnight (.And [AKnave, BKnave]),
  .Implies AKnave (.Not (.And [AKnave, BKnave]))
]

/-- knowledge2, puzzle.py lines 40-52. -/
def knowledge2 : Sentence := .And [
  .And [.Or [AKnight, AKnave], .Not (.And [AKnight, AKnave])],
  .And [.Or [BKnight, BKnave], .Not (.And [BKnight, BKnave])],
  .Implies AKnight (.Or [.And [AKnight, BKnight], .And [BKnave, AKnave]]),
  .Implies BKnight (.Or [.And [AKnight, BKnave], .And [AKnave, BKnight]]),
  .Implies AKnave (.Not (.Or [.And [AKnight, BKnight], .And [BKnave, AKnave]])),
  .Implies BKnave (.Not (.Or [.And [AKnight, BKnave], .And [AKnave, BKnight]]))
]

/-- The sub-sentence Implication(AKnave, Not(AKnave)) occurring on line 74 of
puzzle.py, inside knowledge3's encoding of B's report. -/
def knaveImpliesNotKnave : Sentence := .Implies AKnave (.Not AKnave)

/-- The conjunct list of knowledge3, puzzle.py lines 59-76. -/
def knowledge3List : List Sentence := [
  .And [.Or [AKnight, AKnave], .Not (.And [AKnight, AKnave])],
  .And [.Or [BKnight, BKnave], .Not (.And [BKnight, BKnave])],
  .And [.Or [CKnight, CKnave], .Not (.And [CKnight, CKnave])],
  .Implies CKnight AKnight,
  .Implies CKnave (.Not AKnight),
  .Implies BKnight CKnave,
  .Implies BKnave (.Not CKnave),
  .Implies BKnight (.And [.Implies AKnight AKnave, knaveImpliesNotKnave]),
  .Implies BKnave (.And [.Implies AKnight AKnight, .Implies AKnave AKnave])
]

/-- knowledge3, puzzle.py lines 59-76. -/
def knowledge3 : Sentence := .And knowledge3List

/-- The conjunct sequence of a knowledge base: the `.conjuncts` attribute read
on line 89 of puzzle.py; it exists only on a conjunction node (reading it on
any other node is an attribute error, embedded as `none`). -/
def conjuncts : Sentence → Option (List Sentence)
  | .And xs => some xs
  | _ => none

/-- The fixed six-symbol roster of main, puzzle.py line 80 (by name). -/
def mainSymbols : List String :=
  [AKnightStr, AKnaveStr, BKnightStr, BKnaveStr, CKnightStr, CKnaveStr]

/-- The per-puzzle body of main, puzzle.py lines 88-94: the printed lines for
one puzzle, paired with the number of entailment-checker calls made.  An empty
conjunct sequence prints the "Not yet implemented" line and performs no check;
otherwise model_check runs once per symbol of the roster and the symbols for
which it returns true are printed indented. -/
def runPuzzle (knowledge : Sentence) : Option (List String × Nat) :=
  (conjuncts knowledge).map (fun cs =>
    if cs.length = 0 then
      (["    Not yet implemented."], 0)
    else
      ((mainSymbols.filter (fun s => model_check knowledge (.Atom s) = some true)).map
          (fun s => "    " ++ s),
        mainSymbols.length))

/-! Basic lemmas about the embedded engine. -/

@[simp] theorem mem_union {s : String} {a b : List String} :
    s ∈ union a b ↔ s ∈ a ∨ s ∈ b := by
  simp only [union, List.mem_append, List.mem_filter, decide_eq_true_eq]
  constructor
  · rintro (h | ⟨h, -⟩)
    · exact Or.inl h
    · exact Or.inr h
  · rintro (h | h)
    · exact Or.inl h
    · by_cases ha : s ∈ a
      · exact Or.inl ha
      · exact Or.inr ⟨h, ha⟩

theorem union_nodup {a b : List String} (ha : a.Nodup) (hb : b.Nodup) :
    (union a b).Nodup := by
  refine List.Nodup.append ha (hb.filter _) ?_
  intro s hsa hsb
  rcases List.mem_filter.1 hsb with ⟨-, hdec⟩
  exact (of_decide_eq_true hdec) hsa

@[simp] theorem union_nil (b : List String) : union [] b = b := by
  simp [union]

theorem lookupModel_assignOf (L : List String) (f : String → Bool) (s : String) :
    lookupModel (assignOf L f) s = if s ∈ L then some (f s) else none := by
  induction L with
  | nil => simp [assignOf, lookupModel]
  | cons t rest ih =>
      by_cases hts : t = s
      · subst hts
        simp [assignOf, lookupModel]
      · have hst : s ≠ t := fun h => hts h.symm
        simp only [assignOf, List.map_cons, lookupModel, hts, if_false]
        rw [show (List.map (fun s => (s, f s)) rest) = assignOf rest f from rfl, ih]
        simp [List.mem_cons, hst]

theorem lookupModel_isSome_of_mem_keys {m : Model} {s : String}
    (h : s ∈ m.map Prod.fst) : ∃ v, lookupModel m s = some v := by
  induction m with
  | nil => simp at h
  | cons kv rest ih =>
      obtain ⟨k, v⟩ := kv
      simp only [List.map_cons, List.mem_cons] at h
      by_cases hk : k = s
      · exact ⟨v, by simp [lookupModel, hk]⟩
      · rcases h with h1 | h1
        · exact absurd h1.symm hk
        · obtain ⟨w, hw⟩ := ih h1
          exact ⟨w, by simp [lookupModel, hk, hw]⟩

@[simp] theorem assignOf_keys (L : List String) (f : String → Bool) :
    (assignOf L f).map Prod.fst = L := by
  have hfun : (Prod.fst ∘ fun s : String => (s, f s)) = id := rfl
  simp [assignOf, List.map_map, hfun]

theorem models_length (L : List String) : (models L).length = 2 ^ L.length := by
  induction L with
  | nil => simp [models]
  | cons s rest ih => simp [models, ih, Nat.pow_succ]; ring

theorem models_keys {L : List String} :
    ∀ m ∈ models L, m.map Prod.fst = L := by
  induction L with
  | nil => intro m hm; simp [models] at hm; simp [hm]
  | cons s rest ih =>
      intro m hm
      simp only [models, List.mem_append, List.mem_map] at hm
      rcases hm with ⟨m', hm', rfl⟩ | ⟨m', hm', rfl⟩ <;>
        simp [ih m' hm']

theorem assignOf_mem_models (L : List String) (f : String → Bool) :
    assignOf L f ∈ models L := by
  induction L with
  | nil => simp [models, assignOf]
  | cons s rest ih =>
      simp only [models, List.mem_append, List.mem_map, assignOf, List.map_cons]
      cases hf : f s
      · exact Or.inr ⟨assignOf rest f, ih, by simp [assignOf, hf]⟩
      · exact Or.inl ⟨assignOf rest f, ih, by simp [assignOf, hf]⟩

theorem assignOf_congr {L : List String} {f g : String → Bool}
    (h : ∀ t ∈ L, f t = g t) : assignOf L f = assignOf L g := by
  induction L with
  | nil => rfl
  | cons t rest ih =>
      simp only [assignOf, List.map_cons, List.cons.injEq] at ih ⊢
      exact ⟨by rw [h t (List.mem_cons_self t rest)],
        ih (fun u hu => h u (List.mem_cons_of_mem t hu))⟩

theorem mem_models_iff {L : List String} (hL : L.Nodup) {m : Model} :
    m ∈ models L ↔ ∃ f, m = assignOf L f := by
  constructor
  · induction L generalizing m with
    | nil =>
        intro hm
        simp [models] at hm
        exact ⟨fun _ => true, by simp [hm, assignOf]⟩
    | cons s rest ih =>
        intro hm
        simp only [models, List.mem_append, List.mem_map] at hm
        have hrest : rest.Nodup := (List.nodup_cons.1 hL).2
        have hs : s ∉ rest := (List.nodup_cons.1 hL).1
        have hcons : ∀ (b : Bool) (g : String → Bool),
            assignOf (s :: rest) g = (s, g s) :: assignOf rest g := by
          intro b g; rfl
        rcases hm with ⟨m', hm', rfl⟩ | ⟨m', hm', rfl⟩
        · obtain ⟨f, rfl⟩ := ih hrest hm'
          refine ⟨fun t => if t = s then true else f t, ?_⟩
          rw [hcons true, if_pos rfl]
          have htail : assignOf rest f =
              assignOf rest (fun t => if t = s then true else f t) :=
            assignOf_congr (fun t ht => by
              have hne : t ≠ s := fun hh => hs (hh ▸ ht)
              simp [hne])
          rw [← htail]
        · obtain ⟨f, rfl⟩ := ih hrest hm'
          refine ⟨fun t => if t = s then false else f t, ?_⟩
          rw [hcons false, if_pos rfl]
          have htail : assignOf rest f =
              assignOf rest (fun t => if t = s then false else f t) :=
            assignOf_congr (fun t ht => by
              have hne : t ≠ s := fun hh => hs (hh ▸ ht)
              simp [hne])
          rw [← htail]
  · rintro ⟨f, rfl⟩
    exact assignOf_mem_models L f

mutual

theorem symbols_nodup : ∀ sent : Sentence, (symbols sent).Nodup
  | .Atom s => by simp [symbols]
  | .Not x => by simpa [symbols] using symbols_nodup x
  | .And xs => by simpa [symbols] using symbolsList_nodup xs
  | .Or xs => by simpa [symbols] using symbolsList_nodup xs
  | .Implies a b => by
      simpa [symbols] using union_nodup (symbols_nodup a) (symbols_nodup b)
  | .Iff a b => by
      simpa [symbols] using union_nodup (symbols_nodup a) (symbols_nodup b)

theorem symbolsList_nodup : ∀ xs : List Sentence, (symbolsList xs).Nodup
  | [] => by simp [symbolsList]
  | x :: xs => by
      simpa [symbolsList] using union_nodup (symbols_nodup x) (symbolsList_nodup xs)

end

mutual

theorem evaluate_isSome : ∀ (sent : Sentence) (m : Model),
    (∀ s ∈ symbols sent, ∃ v, lookupModel m s = some v) →
    ∃ b, evaluate sent m = some b
  | .Atom s, m, h => by
      obtain ⟨v, hv⟩ := h s (by simp [symbols])
      exact ⟨v, by simpa [evaluate] using hv⟩
  | .Not x, m, h => by
      obtain ⟨b, hb⟩ :=
        evaluate_isSome x m (fun s hs => h s (by simpa [symbols] using hs))
      exact ⟨!b, by simp [evaluate, hb]⟩
  | .And xs, m, h => by
      obtain ⟨bs, hbs⟩ :=
        evalList_isSome xs m (fun s hs => h s (by simpa [symbols] using hs))
      exact ⟨bs.all id, by simp [evaluate, hbs]⟩
  | .Or xs, m, h => by
      obtain ⟨bs, hbs⟩ :=
        evalList_isSome xs m (fun s hs => h s (by simpa [symbols] using hs))
      exact ⟨bs.any id, by simp [evaluate, hbs]⟩
  | .Implies a b, m, h => by
      obtain ⟨va, hva⟩ := evaluate_isSome a m
        (fun s hs => h s (by simp only [symbols, mem_union]; exact Or.inl hs))
      obtain ⟨vb, hvb⟩ := evaluate_isSome b m
        (fun s hs => h s (by simp only [symbols, mem_union]; exact Or.inr hs))
      exact ⟨!va || vb, by simp [evaluate, hva, hvb]⟩
  | .Iff a b, m, h => by
      obtain ⟨va, hva⟩ := evaluate_isSome a m
        (fun s hs => h s (by simp only [symbols, mem_union]; exact Or.inl hs))
      obtain ⟨vb, hvb⟩ := evaluate_isSome b m
        (fun s hs => h s (by simp only [symbols, mem_union]; exact Or.inr hs))
      exact ⟨va == vb, by simp [evaluate, hva, hvb]⟩

theorem evalList_isSome : ∀ (xs : List Sentence) (m : Model),
    (∀ s ∈ symbolsList xs, ∃ v, lookupModel m s = some v) →
    ∃ bs, evalList xs m = some bs
  | [], _, _ => ⟨[], rfl⟩
  | x :: xs, m, h => by
      obtain ⟨b, hb⟩ := evaluate_isSome x m
        (fun s hs => h s (by simp only [symbolsList, mem_union]; exact Or.inl hs))
      obtain ⟨bs, hbs⟩ := evalList_isSome xs m
        (fun s hs => h s (by simp only [symbolsList, mem_union]; exact Or.inr hs))
      exact ⟨b :: bs, by simp [evalList, hb, hbs]⟩

end

mutual

theorem evaluate_congr : ∀ (sent : Sentence) (m₁ m₂ : Model),
    (∀ s ∈ symbols sent, lookupModel m₁ s = lookupModel m₂ s) →
    evaluate sent m₁ = evaluate sent m₂
  | .Atom s, m₁, m₂, h => by simpa [evaluate] using h s (by simp [symbols])
  | .Not x, m₁, m₂, h => by
      simp only [evaluate]
      rw [evaluate_congr x m₁ m₂ (fun s hs => h s (by simpa [symbols] using hs))]
  | .And xs, m₁, m₂, h => by
      simp only [evaluate]
      rw [evalList_congr xs m₁ m₂ (fun s hs => h s (by simpa [symbols] using hs))]
  | .Or xs, m₁, m₂, h => by
      simp only [evaluate]
      rw [evalList_congr xs m₁ m₂ (fun s hs => h s (by simpa [symbols] using hs))]
  | .Implies a b, m₁, m₂, h => by
      simp only [evaluate]
      rw [evaluate_congr a m₁ m₂
          (fun s hs => h s (by simp only [symbols, mem_union]; exact Or.inl hs)),
        evaluate_congr b m₁ m₂
          (fun s hs => h s (by simp only [symbols, mem_union]; exact Or.inr hs))]
  | .Iff a b, m₁, m₂, h => by
      simp only [evaluate]
      rw [evaluate_congr a m₁ m₂
          (fun s hs => h s (by simp only [symbols, mem_union]; exact Or.inl hs)),
        evaluate_congr b m₁ m₂
          (fun s hs => h s (by simp only [symbols, mem_union]; exact Or.inr hs))]

theorem evalList_congr : ∀ (xs : List Sentence) (m₁ m₂ : Model),
    (∀ s ∈ symbolsList xs, lookupModel m₁ s = lookupModel m₂ s) →
    evalList xs m₁ = evalList xs m₂
  | [], _, _, _ => rfl
  | x :: xs, m₁, m₂, h => by
      simp only [evalList]
      rw [evaluate_congr x m₁ m₂
          (fun s hs => h s (by simp only [symbolsList, mem_union]; exact Or.inl hs)),
        evalList_congr xs m₁ m₂
          (fun s hs => h s (by simp only [symbolsList, mem_union]; exact Or.inr hs))]

end

theorem checkAll_eq_some_true_iff (kb q : Sentence) :
    ∀ ms : List Model,
    (∀ m ∈ ms, (∃ b, evaluate kb m = some b) ∧ (∃ b, evaluate q m = some b)) →
    (checkAll kb q ms = some true ↔
      ∀ m ∈ ms, evaluate kb m = some true → evaluate q m = some true)
  | [], _ => by simp [checkAll]
  | m :: ms, h => by
      obtain ⟨⟨bk, hbk⟩, ⟨bq, hbq⟩⟩ := h m (List.mem_cons_self m ms)
      have ihyp := checkAll_eq_some_true_iff kb q ms
        (fun m' hm' => h m' (List.mem_cons_of_mem m hm'))
      cases bk <;> cases bq <;>
        simp [checkAll, hbk, hbq, ihyp, List.forall_mem_cons]

theorem model_check_iff (K Q : Sentence) :
    model_check K Q = some true ↔
      ∀ f : String → Bool,
        evaluate K (assignOf (allSymbols K Q) f) = some true →
        evaluate Q (assignOf (allSymbols K Q) f) = some true := by
  have hnd : (allSymbols K Q).Nodup :=
    union_nodup (symbols_nodup K) (symbols_nodup Q)
  have hKsub : ∀ s ∈ symbols K, s ∈ allSymbols K Q := fun s hs => by
    simp only [allSymbols, mem_union]; exact Or.inl hs
  have hQsub : ∀ s ∈ symbols Q, s ∈ allSymbols K Q := fun s hs => by
    simp only [allSymbols, mem_union]; exact Or.inr hs
  have htot : ∀ m ∈ models (allSymbols K Q),
      (∃ b, evaluate K m = some b) ∧ (∃ b, evaluate Q m = some b) := by
    intro m hm
    have hkeys := models_keys m hm
    exact ⟨evaluate_isSome K m (fun s hs =>
        lookupModel_isSome_of_mem_keys (by rw [hkeys]; exact hKsub s hs)),
      evaluate_isSome Q m (fun s hs =>
        lookupModel_isSome_of_mem_keys (by rw [hkeys]; exact hQsub s hs))⟩
  rw [model_check, checkAll_eq_some_true_iff K Q _ htot]
  constructor
  · intro hall f
    exact hall (assignOf (allSymbols K Q) f) (assignOf_mem_models _ f)
  · intro hall m hm
    obtain ⟨f, rfl⟩ := (mem_models_iff hnd).1 hm
    exact hall f

theorem evaluate_assignOf_subset (sent : Sentence) {L₁ L₂ : List String}
    (f : String → Bool) (h₁ : ∀ s ∈ symbols sent, s ∈ L₁)
    (h₂ : ∀ s ∈ symbols sent, s ∈ L₂) :
    evaluate sent (assignOf L₁ f) = evaluate sent (assignOf L₂ f) :=
  evaluate_congr sent _ _ (fun s hs => by
    rw [lookupModel_assignOf, lookupModel_assignOf, if_pos (h₁ s hs),
      if_pos (h₂ s hs)])

mutual

theorem evaluate_none_of_unassigned :
    ∀ (sent : Sentence) (m : Model) (s : String),
    s ∈ symbols sent → lookupModel m s = none → evaluate sent m = none
  | .Atom t, m, s, hmem, habs => by
      simp only [symbols, List.mem_singleton] at hmem
      subst hmem
      simpa [evaluate] using habs
  | .Not x, m, s, hmem, habs => by
      simp only [symbols] at hmem
      simp [evaluate, evaluate_none_of_unassigned x m s hmem habs]
  | .And xs, m, s, hmem, habs => by
      simp only [symbols] at hmem
      simp [evaluate, evalList_none_of_unassigned xs m s hmem habs]
  | .Or xs, m, s, hmem, habs => by
      simp only [symbols] at hmem
      simp [evaluate, evalList_none_of_unassigned xs m s hmem habs]
  | .Implies a b, m, s, hmem, habs => by
      simp only [symbols, mem_union] at hmem
      rcases hmem with hmem | hmem
      · simp [evaluate, evaluate_none_of_unassigned a m s hmem habs]
      · cases hva : evaluate a m with
        | none => simp [evaluate, hva]
        | some va =>
            simp [evaluate, hva, evaluate_none_of_unassigned b m s hmem habs]
  | .Iff a b, m, s, hmem, habs => by
      simp only [symbols, mem_union] at hmem
      rcases hmem with hmem | hmem
      · simp [evaluate, evaluate_none_of_unassigned a m s hmem habs]
      · cases hva : evaluate a m with
        | none => simp [evaluate, hva]
        | some va =>
            simp [evaluate, hva, evaluate_none_of_unassigned b m s hmem habs]

theorem evalList_none_of_unassigned :
    ∀ (xs : List Sentence) (m : Model) (s : String),
    s ∈ symbolsList xs → lookupModel m s = none → evalList xs m = none
  | [], _, _, hmem, _ => by simp [symbolsList] at hmem
  | x :: xs, m, s, hmem, habs => by
      simp only [symbolsList, mem_union] at hmem
      rcases hmem with hmem | hmem
      · simp [evalList, evaluate_none_of_unassigned x m s hmem habs]
      · cases hb : evaluate x m with
        | none => simp [evalList, hb]
        | some b =>
            simp [evalList, hb, evalList_none_of_unassigned xs m s hmem habs]

end

/-! Claim theorems for the Knights engine and client. -/

/-- C1: model_check (the `entails` of the spec) returns true exactly when
every total truth assignment over symbols(K) ∪ symbols(Q) that satisfies the
knowledge base also satisfies the query. -/
theorem c1_entails_iff_every_model_satisfies_query (K Q : Sentence) :
    model_check K Q = some true ↔
      ∀ f : String → Bool,
        evaluate K (assignOf (allSymbols K Q) f) = some true →
        evaluate Q (assignOf (allSymbols K Q) f) = some true :=
  model_check_iff K Q

/-- C2: over a duplicate-free symbol list, the enumerator produces exactly
2^|S| assignments, each total over exactly the symbols of S, every total
assignment occurs, and no two produced assignments agree everywhere on S. -/
theorem c2_models_enumerates_all_assignments (L : List String) (h : L.Nodup) :
    (models L).length = 2 ^ L.length ∧
    (∀ m ∈ models L, m.map Prod.fst = L) ∧
    (∀ f : String → Bool, assignOf L f ∈ models L) ∧
    (∀ m₁ ∈ models L, ∀ m₂ ∈ models L, m₁ ≠ m₂ →
      ∃ s ∈ L, lookupModel m₁ s ≠ lookupModel m₂ s) := by
  refine ⟨models_length L, models_keys, fun f => assignOf_mem_models L f, ?_⟩
  intro m₁ hm₁ m₂ hm₂ hne
  obtain ⟨f₁, rfl⟩ := (mem_models_iff h).1 hm₁
  obtain ⟨f₂, rfl⟩ := (mem_models_iff h).1 hm₂
  by_contra hc
  push_neg at hc
  refine hne (assignOf_congr (fun t ht => ?_))
  have heq := hc t ht
  rw [lookupModel_assignOf, lookupModel_assignOf, if_pos ht, if_pos ht] at heq
  exact Option.some.inj heq

/-- Witness for C2 at the concrete symbol list ["p", "q"]. -/
theorem c2_models_enumerates_all_assignments_witness :
    (["p", "q"] : List String).Nodup ∧
    (models ["p", "q"]).length = 2 ^ (["p", "q"] : List String).length :=
  ⟨by decide, (c2_models_enumerates_all_assignments ["p", "q"] (by decide)).1⟩

/-- C3: on Puzzle 0's knowledge base exactly as built in puzzle.py,
model_check reports AKnave entailed and AKnight not entailed. -/
theorem c3_puzzle0_entails_aknave_not_aknight :
    model_check knowledge0 AKnave = some true ∧
    model_check knowledge0 AKnight = some false :=
  ⟨by decide, by decide⟩

/-- C4: a knowledge base with no satisfying assignment among the enumerated
total assignments over symbols(K) ∪ symbols(Q) entails every query. -/
theorem c4_unsatisfiable_kb_entails_everything (K Q : Sentence)
    (h : ∀ m ∈ models (allSymbols K Q), evaluate K m ≠ some true) :
    model_check K Q = some true :=
  (model_check_iff K Q).2 (fun f hf =>
    absurd hf (h _ (assignOf_mem_models _ f)))

/-- Witness for C4 with the contradictory knowledge base p ∧ ¬p and query q. -/
theorem c4_unsatisfiable_kb_entails_everything_witness :
    (∀ m ∈ models (allSymbols (.And [.Atom "p", .Not (.Atom "p")]) (.Atom "q")),
      evaluate (.And [.Atom "p", .Not (.Atom "p")]) m ≠ some true) ∧
    model_check (.And [.Atom "p", .Not (.Atom "p")]) (.Atom "q") = some true :=
  ⟨by decide,
    c4_unsatisfiable_kb_entails_everything (.And [.Atom "p", .Not (.Atom "p")])
      (.Atom "q") (by decide)⟩

/-- C5 counterexample: the empty conjunction And([]) is logically true, not
unsatisfiable, so it does not entail an atomic-symbol query; model_check
returns false for the symbol query AKnight, refuting "entails(And([]), q)
is true for every q, in particular every atomic-symbol query". -/
theorem c5_counterexample_empty_kb_does_not_entail_atom :
    model_check (.And []) AKnight = some false := by decide

/-- C5 amended: the empty conjunction And([]) evaluates to true under every
assignment, so entails(And([]), q) is true exactly for the queries q that are
true under every total assignment over symbols(q) (the tautological q); it is
false for the false-contradiction query and for atomic-symbol queries. -/
theorem c5_amended_empty_kb_entails_iff_tautology (q : Sentence) :
    model_check (.And []) q = some true ↔
      ∀ f : String → Bool, evaluate q (assignOf (symbols q) f) = some true := by
  have hsym : allSymbols (.And []) q = symbols q := by
    simp [allSymbols, symbols, symbolsList]
  have hiff := model_check_iff (.And []) q
  rw [hsym] at hiff
  rw [hiff]
  constructor
  · intro h f
    exact h f (by simp [evaluate, evalList])
  · intro h f _
    exact h f

/-- C6: entailment is monotonic — adding a conjunct to the knowledge base
cannot retract an entailment. -/
theorem c6_entailment_monotone (kb q extra : Sentence)
    (h : model_check kb q = some true) :
    model_check (.And [kb, extra]) q = some true := by
  rw [model_check_iff] at h ⊢
  intro f hK2
  have hkb_sub₁ : ∀ s ∈ symbols kb, s ∈ allSymbols kb q := fun s hs => by
    simp only [allSymbols, mem_union]; exact Or.inl hs
  have hkb_sub₂ : ∀ s ∈ symbols kb, s ∈ allSymbols (.And [kb, extra]) q :=
    fun s hs => by
      simp only [allSymbols, symbols, symbolsList, mem_union]
      exact Or.inl (Or.inl hs)
  have hq_sub₁ : ∀ s ∈ symbols q, s ∈ allSymbols kb q := fun s hs => by
    simp only [allSymbols, mem_union]; exact Or.inr hs
  have hq_sub₂ : ∀ s ∈ symbols q, s ∈ allSymbols (.And [kb, extra]) q :=
    fun s hs => by
      simp only [allSymbols, mem_union]; exact Or.inr hs
  have hkb_true :
      evaluate kb (assignOf (allSymbols (.And [kb, extra]) q) f) = some true := by
    cases hk : evaluate kb (assignOf (allSymbols (.And [kb, extra]) q) f) with
    | none => simp [evaluate, evalList, hk] at hK2
    | some b =>
        cases he : evaluate extra (assignOf (allSymbols (.And [kb, extra]) q) f) with
        | none => simp [evaluate, evalList, hk, he] at hK2
        | some c =>
            simp [evaluate, evalList, hk, he] at hK2
            rw [hK2.1]
  have h1 : evaluate kb (assignOf (allSymbols kb q) f) = some true := by
    rw [evaluate_assignOf_subset kb f hkb_sub₁ hkb_sub₂]
    exact hkb_true
  have h2 := h f h1
  rw [evaluate_assignOf_subset q f hq_sub₂ hq_sub₁]
  exact h2

/-- Witness for C6 with kb = q = p and extra = r. -/
theorem c6_entailment_monotone_witness :
    model_check (.Atom "p") (.Atom "p") = some true ∧
    model_check (.And [.Atom "p", .Atom "r"]) (.Atom "p") = some true :=
  ⟨by decide, c6_entailment_monotone (.Atom "p") (.Atom "p") (.Atom "r") (by decide)⟩

/-- C7: evaluating any sentence containing a symbol absent from the model
yields the unassigned-symbol error (`none`), never a defaulted Boolean, and
the error propagates through the entailment checker's loop when such a model
is checked. -/
theorem c7_unassigned_symbol_error_propagates (sent : Sentence) (m : Model)
    (s : String) (hmem : s ∈ symbols sent) (habs : lookupModel m s = none) :
    evaluate sent m = none ∧
    ∀ (q : Sentence) (ms : List Model), checkAll sent q (m :: ms) = none := by
  have heval := evaluate_none_of_unassigned sent m s hmem habs
  exact ⟨heval, fun q ms => by simp [checkAll, heval]⟩

/-- Witness for C7: the atom p evaluated in the empty model. -/
theorem c7_unassigned_symbol_error_propagates_witness :
    ("p" ∈ symbols (.Atom "p") ∧ lookupModel [] "p" = none) ∧
    (evaluate (.Atom "p") [] = none ∧
      ∀ (q : Sentence) (ms : List Model), checkAll (.Atom "p") q ([] :: ms) = none) :=
  ⟨⟨by decide, rfl⟩,
    c7_unassigned_symbol_error_propagates (.Atom "p") [] "p" (by decide) rfl⟩

/-- C8: the sub-sentence Implication(AKnave, Not(AKnave)) on line 74 of
puzzle.py (the eighth conjunct of knowledge3) evaluates to true under a model
assigning AKnave exactly when that model assigns AKnave false. -/
theorem c8_knave_implies_not_knave_iff_antecedent_false (m : Model) (b : Bool)
    (h : lookupModel m AKnaveStr = some b) :
    knowledge3List.get? 7 =
      some (.Implies BKnight (.And [.Implies AKnight AKnave, knaveImpliesNotKnave])) ∧
    (evaluate knaveImpliesNotKnave m = some true ↔ b = false) := by
  refine ⟨rfl, ?_⟩
  simp only [knaveImpliesNotKnave, AKnave, evaluate, h, Option.bind_some,
    Option.map_some]
  cases b <;> simp

/-- Witness for C8 with the model assigning AKnave false. -/
theorem c8_knave_implies_not_knave_iff_antecedent_false_witness :
    lookupModel [(AKnaveStr, false)] AKnaveStr = some false ∧
    (knowledge3List.get? 7 =
        some (.Implies BKnight (.And [.Implies AKnight AKnave, knaveImpliesNotKnave])) ∧
      (evaluate knaveImpliesNotKnave [(AKnaveStr, false)] = some true ↔
        false = false)) :=
  ⟨by decide,
    c8_knave_implies_not_knave_iff_antecedent_false [(AKnaveStr, false)] false
      (by decide)⟩

/-- C9: the per-puzzle body of main prints the "Not yet implemented" line and
performs no entailment check when the conjunct sequence is empty; otherwise
it runs model_check once per symbol of the six-symbol roster and the printed
lines are exactly the indented entailed symbols. -/
theorem c9_main_reports_entailed_symbols (xs : List Sentence) :
    (xs.length = 0 →
      runPuzzle (.And xs) = some (["    Not yet implemented."], 0)) ∧
    (xs.length ≠ 0 →
      ∃ out, runPuzzle (.And xs) = some (out, mainSymbols.length) ∧
        ∀ line, line ∈ out ↔
          ∃ s, s ∈ mainSymbols ∧ model_check (.And xs) (.Atom s) = some true ∧
            line = "    " ++ s) := by
  constructor
  · intro h
    simp [runPuzzle, conjuncts, h]
  · intro h
    refine ⟨(mainSymbols.filter
        (fun s => model_check (.And xs) (.Atom s) = some true)).map
          (fun s => "    " ++ s), ?_, ?_⟩
    · simp [runPuzzle, conjuncts, h]
    intro line
    simp only [List.mem_map, List.mem_filter, decide_eq_true_eq]
    constructor
    · rintro ⟨s, ⟨hs, hmc⟩, rfl⟩
      exact ⟨s, hs, hmc, rfl⟩
    · rintro ⟨s, hs, hmc, rfl⟩
      exact ⟨s, ⟨hs, hmc⟩, rfl⟩

/-- Witness for C9 at the empty conjunct sequence. -/
theorem c9_main_reports_entailed_symbols_witness :
    ([] : List Sentence).length = 0 ∧
    runPuzzle (.And []) = some (["    Not yet implemented."], 0) :=
  ⟨rfl, (c9_main_reports_entailed_symbols []).1 rfl⟩

end CS50

namespace Pagerank

/-! src/Pagerank/pagerank.py: the transition model.  A corpus is a Python
dictionary mapping each page to the set of pages it links to; embedded as an
association list whose keys are unique.  Probabilities are embedded as
rationals. -/

/-- A corpus: each key is a page, its value the list of pages it links to. -/
abbrev Corpus := List (String × List String)

/-- Dictionary read `corpus[page]`; a missing key is Python's KeyError,
embedded as `none`. -/
def corpusGet : Corpus → String → Option (List String)
  | [], _ => none
  | (k, v) :: rest, s => if k = s then some v else corpusGet rest s

/-- Dictionary read on a probability dictionary. -/
def dictGet : List (String × ℚ) → String → Option ℚ
  | [], _ => none
  | (k, v) :: rest, s => if k = s then some v else dictGet rest s

/-- Python dictionary assignment `d[k] = v`: overwrite the existing entry in
place, or append a new entry (insertion order). -/
def dictSet : List (String × ℚ) → String → ℚ → List (String × ℚ)
  | [], k, v => [(k, v)]
  | (k', v') :: rest, k, v =>
      if k' = k then (k', v) :: rest else (k', v') :: dictSet rest k v

/-- transition_model, pagerank.py lines 52-84.  In the empty-links branch the
source's second loop is `for page, prob in return_dict.items(): prob += 1 /
len(return_dict)`, which rebinds the loop-local name `prob` and leaves every
dictionary entry unchanged, so the branch returns the all-zero dictionary. -/
def transition_model (corpus : Corpus) (page : String)
    (damping_factor : ℚ) : Option (List (String × ℚ)) :=
  match corpusGet corpus page with
  | none => none
  | some links =>
      if links.length = 0 then
        some (corpus.foldl (fun d x => dictSet d x.1 0) [])
      else
        let return_dict := links.foldl (fun d x => dictSet d x 0) []
        let return_dict := return_dict.map
          (fun kv => (kv.1, kv.2 + damping_factor / (links.length : ℚ)))
        let return_dict := corpus.foldl
          (fun d x => if (dictGet d x.1).isSome then d else dictSet d x.1 0)
          return_dict
        let return_dict := return_dict.map
          (fun kv => (kv.1, kv.2 + (1 - damping_factor) / (corpus.length : ℚ)))
        some return_dict

theorem dictSet_of_not_mem_keys {d : List (String × ℚ)} {k : String} (v : ℚ)
    (h : k ∉ d.map Prod.fst) : dictSet d k v = d ++ [(k, v)] := by
  induction d with
  | nil => rfl
  | cons kv rest ih =>
      obtain ⟨k', v'⟩ := kv
      simp only [List.map_cons, List.mem_cons] at h
      push_neg at h
      simp only [dictSet, if_neg (fun hh : k' = k => h.1 hh.symm),
        List.cons_append, List.cons.injEq, true_and]
      exact ih h.2

theorem zero_fill_eq (cs : Corpus) :
    ∀ acc : List (String × ℚ), (cs.map Prod.fst).Nodup →
    (∀ c ∈ cs, c.1 ∉ acc.map Prod.fst) →
    cs.foldl (fun d x => dictSet d x.1 0) acc = acc ++ cs.map (fun x => (x.1, 0)) := by
  induction cs with
  | nil => intro acc _ _; simp
  | cons c rest ih =>
      intro acc hnd hacc
      simp only [List.map_cons, List.nodup_cons] at hnd
      have hstep : dictSet acc c.1 0 = acc ++ [(c.1, 0)] :=
        dictSet_of_not_mem_keys 0 (hacc c (List.mem_cons_self c rest))
      simp only [List.foldl_cons, hstep]
      rw [ih (acc ++ [(c.1, 0)]) hnd.2 ?_]
      · simp
      · intro c' hc'
        simp only [List.map_append, List.map_cons, List.map_nil,
          List.mem_append, List.mem_singleton]
        push_neg
        refine ⟨hacc c' (List.mem_cons_of_mem c hc'), ?_⟩
        intro hfst
        exact hnd.1 (hfst ▸ List.mem_map_of_mem Prod.fst hc')

/-- C10: for any corpus (with the dictionary's unique keys) and a page whose
link set is empty, transition_model returns a dictionary whose keys are
exactly the corpus's pages and whose values are all 0, so the values sum to 0
rather than to 1. -/
theorem c10_transition_model_dangling_page_all_zero (corpus : Corpus)
    (page : String) (damping_factor : ℚ)
    (hkeys : (corpus.map Prod.fst).Nodup)
    (hempty : corpusGet corpus page = some []) :
    ∃ res, transition_model corpus page damping_factor = some res ∧
      res.map Prod.fst = corpus.map Prod.fst ∧
      (∀ kv ∈ res, kv.2 = 0) ∧
      (res.map Prod.snd).sum = 0 := by
  refine ⟨corpus.map (fun x => (x.1, 0)), ?_, ?_, ?_, ?_⟩
  · rw [transition_model.eq_def, hempty]
    simp only [List.length_nil, if_pos rfl, Option.some.injEq]
    simpa using zero_fill_eq corpus [] hkeys (by simp)
  · simp [List.map_map, Function.comp]
  · intro kv hkv
    rcases List.mem_map.1 hkv with ⟨x, -, rfl⟩
    rfl
  · rw [List.sum_eq_zero]
    intro v hv
    rcases List.mem_map.1 hv with ⟨kv, hkv, rfl⟩
    rcases List.mem_map.1 hkv with ⟨x, -, rfl⟩
    rfl

/-- Witness for C10 on a two-page corpus where page 1.html links nowhere. -/
theorem c10_transition_model_dangling_page_all_zero_witness :
    ((([("1.html", []), ("2.html", ["1.html"])] : Corpus).map Prod.fst).Nodup ∧
      corpusGet [("1.html", []), ("2.html", ["1.html"])] "1.html" = some []) ∧
    ∃ res, transition_model [("1.html", []), ("2.html", ["1.html"])] "1.html"
        (17 / 20) = some res ∧
      res.map Prod.fst =
        ([("1.html", []), ("2.html", ["1.html"])] : Corpus).map Prod.fst ∧
      (∀ kv ∈ res, kv.2 = 0) ∧
      (res.map Prod.snd).sum = 0 :=
  ⟨⟨by decide, by decide⟩,
    c10_transition_model_dangling_page_all_zero
      [("1.html", []), ("2.html", ["1.html"])] "1.html" (17 / 20)
      (by decide) (by decide)⟩

end Pagerank
